import Mathlib

/-
Verification of the decision-list evaluation engine in
src/iml/models/rule_model.py (classes Rule, SBRL, RuleList).

The Python code is shallowly embedded:
  * a categorical batch (2-D numpy array) is a List (List Int) of rows;
  * a 1-D boolean numpy array is a List Bool;
  * numpy elementwise logical_and / logical_xor are List.zipWith;
  * Python exceptions (IndexError from out-of-range column access,
    ValueError from parsing / broadcasting, TypeError from reduce on an
    empty sequence) are all collapsed into Option.none;
  * Python floats are modelled as exact rationals.
-/

namespace XRule

/-! ### Python / numpy primitives -/

/-- Python sequence indexing `l[i]` with negative-index wrap-around;
`none` models an IndexError. -/
def pyGetE {α : Type} (l : List α) (i : Int) : Option α :=
  let j : Int := if i < 0 then i + l.length else i
  if j < 0 then none else l.get? j.toNat

/-- Sequential evaluation of an option-producing function over a list,
stopping at the first failure (the Python for-loops that append to an
accumulator and may raise). -/
def optList {α β : Type} (f : α → Option β) : List α → Option (List β)
  | [] => some []
  | a :: l => do
    let b ← f a
    let bs ← optList f l
    pure (b :: bs)

/-- Elementwise conjunction of two boolean arrays, np.logical_and. -/
def zipAnd (a b : List Bool) : List Bool := List.zipWith (· && ·) a b

/-- Elementwise exclusive or of two boolean arrays, np.logical_xor. -/
def zipXor (a b : List Bool) : List Bool := List.zipWith Bool.xor a b

/-- Python str.split(sep) on a character list: "".split(sep) gives one
empty part, and every separator occurrence starts a new part. -/
def pySplit (sep : Char) : List Char → List (List Char)
  | [] => [[]]
  | c :: cs =>
    if c == sep then [] :: pySplit sep cs
    else
      match pySplit sep cs with
      | [] => [[c]]
      | t :: ts => (c :: t) :: ts

/-- Python str.find(c): index of the first occurrence, or -1. -/
def pyFindChar (s : List Char) (c : Char) : Int :=
  match s.findIdx? (· == c) with
  | none => -1
  | some i => (i : Int)

/-- Value of a decimal digit character. -/
def digitVal (c : Char) : Nat := c.toNat - 48

/-- Parse a nonempty all-digit string as a natural number; `none` models
the ValueError raised by Python int() on anything else. -/
def parseDigits (s : List Char) : Option Nat :=
  if s.isEmpty then none
  else if s.all Char.isDigit then
    some (s.foldl (fun acc c => 10 * acc + digitVal c) 0)
  else none

/-- Python int(str): an optional sign followed by decimal digits.
(Underscore separators and surrounding whitespace, which Python also
accepts, are not exercised by the rule-name encodings and are omitted.) -/
def pyInt (s : List Char) : Option Int :=
  if s.head? == some '-' then (parseDigits (s.drop 1)).map (fun n => -(Int.ofNat n))
  else if s.head? == some '+' then (parseDigits (s.drop 1)).map Int.ofNat
  else (parseDigits s).map Int.ofNat

/-! ### Rule (rule_model.py lines 32-90) -/

/-- One decision-list clause: Rule.__init__ (lines 33-38).  The output
distribution is a list of rationals (Python floats modelled exactly);
support is the optional per-class count vector. -/
structure Rule where
  feature_indices : List Int
  categories : List Int
  output : List ℚ
  support : Option (List Nat)
deriving DecidableEq, Repr

/-- The default-rule test used by is_satisfy (line 84):
feature_indices[0] == -1 AND len(feature_indices) == 1. -/
def Rule.isDefaultRule (r : Rule) : Bool :=
  r.feature_indices.head? == some (-1) && r.feature_indices.length == 1

/-- The elementwise mask x_cat[:, idx] == cat of one condition over the
batch (line 87); fails (IndexError) if the column is missing in some row. -/
def condMaskE (x : List (List Int)) (idx cat : Int) : Option (List Bool) :=
  optList (fun row => (pyGetE row idx).map (fun v => v == cat)) x

/-- reduce(np.logical_and, masks) (line 90); reduce of an empty sequence
raises TypeError, modelled as none. -/
def andMasksE : List (List Bool) → Option (List Bool)
  | [] => none
  | m :: ms => some (ms.foldl zipAnd m)

/-- Return value of Rule.is_satisfy: either a single combined mask (a
numpy array) or the unreduced list of per-condition masks. -/
inductive SatRes where
  | arr (m : List Bool)
  | conds (ms : List (List Bool))
deriving DecidableEq, Repr

/-- Rule.is_satisfy (lines 82-90).  The default shortcut (line 84-85)
applies only when feature_indices == [-1] of length 1 and returns an
all-true array even in per-condition mode; otherwise the per-condition
masks are built in order and, unless per_condition, reduced with AND.
feature_indices[0] on an empty list raises IndexError (none). -/
def Rule.is_satisfy (r : Rule) (x : List (List Int)) (per_condition : Bool) :
    Option SatRes :=
  match r.feature_indices.head? with
  | none => none
  | some f0 =>
    if f0 == -1 && r.feature_indices.length == 1 then
      some (SatRes.arr (List.replicate x.length true))
    else
      match optList (fun p => condMaskE x p.1 p.2)
          (r.feature_indices.zip r.categories) with
      | none => none
      | some ms =>
        if per_condition then some (SatRes.conds ms)
        else (andMasksE ms).map SatRes.arr

/-- Extract the combined-mask form of an is_satisfy result. -/
def satArr : Option SatRes → Option (List Bool)
  | some (SatRes.arr m) => some m
  | _ => none

/-! ### Rule-name parsing (SBRL._rule_name2rule, lines 422-436) -/

/-- Parse one comma-separated clause of a rule-name encoding
(lines 430-435): locate '=' (ValueError if absent), then parse
raw_rule[1:idx] — the substring AFTER the first character — as the
feature index and raw_rule[idx+1:] as the category code. -/
def parseClause (cl : List Char) : Option (Int × Int) :=
  if pyFindChar cl '=' == -1 then none
  else do
    let f ← pyInt ((cl.take (pyFindChar cl '=').toNat).drop 1)
    let c ← pyInt (cl.drop ((pyFindChar cl '=').toNat + 1))
    pure (f, c)

/-- SBRL._rule_name2rule (lines 422-436): the literal name "default"
yields the sentinel default rule; otherwise the brace-stripped text
rule_name[1:-1] is split on commas and each clause parsed in order. -/
def rule_name2rule (rule_name : List Char) (prob : List ℚ)
    (support : Option (List Nat)) : Option Rule :=
  if rule_name = ['d', 'e', 'f', 'a', 'u', 'l', 't'] then
    some (Rule.mk [-1] [-1] prob support)
  else do
    let ps ← optList parseClause (pySplit ',' ((rule_name.drop 1).dropLast))
    pure (Rule.mk (ps.map (fun p => p.1)) (ps.map (fun p => p.2)) prob support)

/-! ### SBRL traversal operations (lines 296-511) -/

/-- The trained SBRL model state used by the evaluation methods:
_rule_list, _n_classes (also the width of _rule_probs), _n_features.
n_rules is the length of _rule_indices, which after train (lines
382-386) equals the length of _rule_list. -/
structure SBRL where
  rule_list : List Rule
  n_classes : Nat
  n_features : Nat
deriving DecidableEq, Repr

/-- One traversal step list for SBRL.decision_support (lines 438-461):
running unclaimed mask un_satisfied, per-rule row recording.  In
per-condition mode the Python code ANDs each element of the is_satisfy
result with the unclaimed mask (iterating a plain numpy array yields its
scalars, each broadcast against the mask), reduces them for the mask
update, and then assigns the whole list into one row of the
preallocated (n_rules, n_instances) bool matrix — an assignment that
broadcasts only when the list has exactly one element, and otherwise
raises ValueError (none). -/
def dsLoop (x : List (List Int)) (per_condition : Bool) :
    List Rule → List Bool → Option (List (List Bool))
  | [], _ => some []
  | r :: rs, un =>
    match r.is_satisfy x per_condition with
    | none => none
    | some sat =>
      if per_condition then
        let lst := match sat with
          | SatRes.conds ms => ms.map (fun m => zipAnd m un)
          | SatRes.arr m => m.map (fun b => un.map (fun u => b && u))
        match andMasksE lst with
        | none => none
        | some satisfied =>
          match (if lst.length == 1 then some (lst.headD []) else none) with
          | none => none
          | some row =>
            match dsLoop x per_condition rs (zipXor satisfied un) with
            | none => none
            | some rest => some (row :: rest)
      else
        match sat with
        | SatRes.arr m =>
          let satisfied := zipAnd m un
          match dsLoop x per_condition rs (zipXor satisfied un) with
          | none => none
          | some rest => some (satisfied :: rest)
        | SatRes.conds _ => none

/-- SBRL.decision_support (lines 438-461): traverse the rule list with
the unclaimed mask initialized to all-true. -/
def decision_supportE (M : SBRL) (x : List (List Int)) (per_condition : Bool) :
    Option (List (List Bool)) :=
  dsLoop x per_condition M.rule_list (List.replicate x.length true)

/-- Loop of SBRL.decision_path (lines 463-478): each row records the
unclaimed mask as it stood BEFORE the rule, and the mask is updated by
XOR against the rule's RAW match (not the claimed subset). -/
def dpLoop (x : List (List Int)) : List Rule → List Bool → Option (List (List Bool))
  | [], _ => some []
  | r :: rs, un =>
    match satArr (r.is_satisfy x false) with
    | none => none
    | some m =>
      match dpLoop x rs (zipXor m un) with
      | none => none
      | some rest => some (un :: rest)

/-- SBRL.decision_path (lines 463-478). -/
def decision_pathE (M : SBRL) (x : List (List Int)) : Option (List (List Bool)) :=
  dpLoop x M.rule_list (List.replicate x.length true)

/-- Loop of SBRL._predict_prob (lines 480-499): y is np.empty, modelled
as a list of Option rows with none for never-written memory; y[satisfied]
= rule.output writes the output row at each claimed instance. -/
def ppLoop (x : List (List Int)) :
    List Rule → List Bool → List (Option (List ℚ)) → Option (List (Option (List ℚ)))
  | [], _, y => some y
  | r :: rs, un, y =>
    match satArr (r.is_satisfy x false) with
    | none => none
    | some m =>
      let satisfied := zipAnd m un
      let y2 := List.zipWith (fun yo b => if b then some r.output else yo) y satisfied
      ppLoop x rs (zipXor satisfied un) y2

/-- SBRL._predict_prob (lines 480-499); SBRL.predict_prob (501-502) just
forwards to it. -/
def predict_probE (M : SBRL) (x : List (List Int)) : Option (List (Option (List ℚ))) :=
  ppLoop x M.rule_list (List.replicate x.length true) (List.replicate x.length none)

/-- The elements of y at the true positions of a boolean mask. -/
def boolSelect {α : Type} (y : List α) (m : List Bool) : List α :=
  (y.zip m).filterMap (fun p => if p.2 then some p.1 else none)

/-- Boolean-mask selection y[support] (line 403); numpy requires the
boolean index to have exactly the indexed array's length. -/
def maskSelectE {α : Type} (y : List α) (m : List Bool) : Option (List α) :=
  if y.length = m.length then some (boolSelect y m) else none

/-- Python/numpy index adjustment for the fancy assignment
support_summary[i, unique_labels] = unique_counts (line 405): a negative
label wraps around, one outside [-n_classes, n_classes) raises. -/
def pyIdxInt (n : Nat) (c : Int) : Int := if c < 0 then c + n else c

/-- Per-rule class-count row of SBRL.compute_support (lines 402-405):
np.unique over the selected labels followed by the fancy assignment into
a zero row is, for in-range labels, the per-class occurrence count. -/
def supportRowE (nc : Nat) (lbls : List Int) : Option (List Nat) :=
  if lbls.all (fun c => decide (-(nc : Int) ≤ c) && decide (c < (nc : Int))) then
    some ((List.range nc).map (fun k => lbls.countP (fun c => pyIdxInt nc c == Int.ofNat k)))
  else none

/-- SBRL.compute_support (lines 391-406): decision_support, then for each
rule the class histogram of the labels of the instances it captured. -/
def compute_supportE (M : SBRL) (x : List (List Int)) (y : List Int) :
    Option (List (List Nat)) := do
  let supports ← decision_supportE M x false
  optList (fun m => do
    let support_labels ← maskSelectE y m
    supportRowE M.n_classes support_labels) supports

/-! ### Rendering (Rule.describe, lines 40-80, and RuleList.describe,
lines 579-604) -/

/-- np.argmax: index of the first maximal element (0 on the empty list,
where numpy would raise; never reached by the claims). -/
def argmaxAux (best : ℚ) (bi : Nat) (i : Nat) : List ℚ → Nat
  | [] => bi
  | q :: l => if best < q then argmaxAux q i (i + 1) l else argmaxAux best bi (i + 1) l

/-- np.argmax over a list of rationals. -/
def argmaxQ : List ℚ → Nat
  | [] => 0
  | q :: l => argmaxAux q 0 1 l

/-- Join strings with a separator (used to model Python str.join). -/
def joinSep (sep : String) : List String → String
  | [] => ""
  | [a] => a
  | a :: b :: rest => a ++ sep ++ joinSep sep (b :: rest)

/-- Left-pad a string with zeros to four characters (the fractional part
of a fixed-point rendering). -/
def pad4 (s : String) : String := String.mk (List.replicate (4 - s.length) '0') ++ s

/-- The per-probability rendering of Rule.describe line 45, Python
format specifier ".4f": fixed four decimal places, rounding half to
even (the binary floats are modelled as exact rationals, and the
rounding is computed on the numerator and denominator directly). -/
def fmt4 (q : ℚ) : String :=
  let a : Nat := q.num.natAbs * 10000
  let d : Nat := q.den
  let f : Nat := a / d
  let r : Nat := a % d
  let n : Nat :=
    if 2 * r < d then f
    else if d < 2 * r then f + 1
    else if f % 2 = 0 then f else f + 1
  (if q.num < 0 then "-" else "") ++ toString (n / 10000) ++ "." ++ pad4 (toString (n % 10000))

/-- Python str() of a float value (line 43 renders output[pred_label]
that way).  Exact shortest-round-trip float display is a floating-point
artifact outside this embedding; the exact rational is rendered instead.
No claim verified here evaluates this branch. -/
def pyFloatStr (q : ℚ) : String := toString q

/-- The bracketed signed support list of Rule.describe lines 77-79:
"+count" for the predicted class, "-count" for the others. -/
def supportStr (r : Rule) (pred_label : Nat) : String :=
  match r.support with
  | none => ""
  | some sup =>
    " [" ++ joinSep "/"
      (sup.enum.map (fun p => (if p.1 == pred_label then "+" else "-") ++ toString p.2))
      ++ "]"

/-- The label-mode output text of Rule.describe lines 41-48: the arg-max
class with its probability, or the full probability vector, prefixed
with the mode name; an unknown mode raises ValueError. -/
def outputText (r : Rule) (label : String) : Option String :=
  let pred_label := argmaxQ r.output
  (if label == "label" then
    some (toString pred_label ++ " (" ++ pyFloatStr (r.output.getD pred_label 0) ++ ")")
  else if label == "prob" then
    some ("[" ++ joinSep ", " (r.output.map fmt4) ++ "]")
  else none).map (fun s => label ++ ": " ++ s)

/-- Python str() of the interval object returned by the external
discretizer (line 66 renders it with str); the interval is modelled as a
list of rationals.  No claim verified here evaluates this rendering. -/
def pyIntervalStr (iv : List ℚ) : String :=
  "[" ++ joinSep ", " (iv.map pyFloatStr) ++ "]"

/-- Rule.describe (lines 40-80).  The default branch is taken whenever
feature_indices[0] == -1 — with NO length check, unlike is_satisfy.
Otherwise each condition is rendered as (feature = category) or
(feature in interval) and joined with "and" inside an IF/THEN clause.
none models the ValueErrors (unknown label, malformed interval) and the
IndexError from feature_names[idx]. -/
def Rule.describeE (r : Rule) (feature_names : Option (List String))
    (category_intervals : List (Option (List ℚ))) (label : String) : Option String := do
  let pred_label := argmaxQ r.output
  let outStr ← outputText r label
  let f0 ← r.feature_indices.head?
  if f0 == -1 then
    pure ("DEFAULT " ++ outStr ++ supportStr r pred_label)
  else do
    let fnames ←
      match feature_names with
      | none => some (r.feature_indices.map (fun i => "X" ++ toString i))
      | some names => optList (fun i => pyGetE names i) r.feature_indices
    let catStrs ← optList (fun p =>
        match p.1 with
        | none => some (" = " ++ toString p.2)
        | some iv =>
          if iv.length == 2 then some (" in " ++ pyIntervalStr iv) else none)
      (category_intervals.zip r.categories)
    let conds := List.zipWith (fun fname c => "(" ++ fname ++ c ++ ")") fnames catStrs
    pure ("IF " ++ joinSep " and " conds ++ " THEN " ++ outStr ++ supportStr r pred_label)

/-- Modelled from the spec: the external discretizer (MDLP) behind the
DiscreteProcessor attached to a RuleList — src/ contains only its call
sites.  It exposes the set of continuous feature indices and, per
(feature, category), the numeric interval the category stands for
(cat2intervals(np.array([cat]), idx)[0], an interval modelled as a list
of rationals). -/
structure Discretizer where
  continuous_features : List Int
  cat2interval : Int → Int → List ℚ

/-- A trained RuleList (class RuleList, lines 539-604): the SBRL state
plus the discretizer held by its DiscreteProcessor.  The discretizer
property (lines 549-553) asserts the processor's presence, so describe
is only callable with one attached. -/
structure RuleListM extends SBRL where
  discretizer : Discretizer

/-- The category_intervals list built by RuleList.describe lines 586-596
for one rule: empty unless feature_indices[0] >= 0, and per condition
either none (feature not continuous) or the discretizer's interval. -/
def ruleIntervals (D : Discretizer) (r : Rule) : List (Option (List ℚ)) :=
  if 0 ≤ r.feature_indices.headD 0 then
    (r.feature_indices.zip r.categories).map (fun p =>
      if p.1 ∈ D.continuous_features then some (D.cat2interval p.1 p.2) else none)
  else []

/-- Loop body of RuleList.describe lines 585-600: append the rule's
description plus a newline, then "\nELSE " when more than one rule
exists and this is not the last. -/
def rlDescribeList (M : RuleListM) (fn : Option (List String)) :
    List Rule → Nat → Option String
  | [], _ => some ""
  | r :: rs, i =>
    match r.describeE fn (ruleIntervals M.discretizer r) "prob" with
    | none => none
    | some line =>
      match rlDescribeList M fn rs (i + 1) with
      | none => none
      | some rest =>
        let sep := if M.rule_list.length > 1 && !(i == M.rule_list.length - 1)
          then "\nELSE " else ""
        some (line ++ "\n" ++ sep ++ rest)

/-- RuleList.describe (lines 579-604) with rt_str=True: the header names
n_rules, then the enumerated rule loop. -/
def RuleList_describeE (M : RuleListM) (fn : Option (List String)) : Option String :=
  (rlDescribeList M fn M.rule_list 0).map
    (fun body => "The rule list has " ++ toString M.rule_list.length ++
      " of rules:\n\n     " ++ body)

/-! ### The mining-engine textual encoding (modelled) -/

/-- Decimal digit characters. -/
def digitChar10 : Nat → Char
  | 0 => '0' | 1 => '1' | 2 => '2' | 3 => '3' | 4 => '4'
  | 5 => '5' | 6 => '6' | 7 => '7' | 8 => '8' | _ => '9'

/-- Fuel-driven most-significant-first decimal rendering. -/
def natDecFuel : Nat → Nat → List Char
  | 0, _ => []
  | fuel + 1, n =>
    if n < 10 then [digitChar10 n]
    else natDecFuel fuel (n / 10) ++ [digitChar10 (n % 10)]

/-- Decimal rendering of a natural number. -/
def natDec (n : Nat) : List Char := natDecFuel (n + 1) n

/-- Modelled from the spec: one clause of the mining engine's compact
textual rule encoding.  The data-encoding step (categorical2pysbrl_data,
outside src/) names each feature with a one-character prefix before its
index, which the parser's raw_rule[1:idx] slice strips again. -/
def encodeClause (p : Nat × Nat) : List Char :=
  'c' :: natDec p.1 ++ '=' :: natDec p.2

/-- Join character-list parts with a separator character. -/
def joinChar (sep : Char) : List (List Char) → List Char
  | [] => []
  | [a] => a
  | a :: b :: rest => a ++ sep :: joinChar sep (b :: rest)

/-- Modelled from the spec: the mining engine's textual encoding of a
condition list, a brace-wrapped comma-separated clause sequence. -/
def encodeRuleName (ps : List (Nat × Nat)) : List Char :=
  '{' :: joinChar ',' (ps.map encodeClause) ++ ['}']

/-! ### Claim-side notions: class histograms and row sums -/

/-- The class histogram of a label vector: occurrence count of each
class index in 0..nc-1. -/
def histC (nc : Nat) (y : List Int) : List Nat :=
  (List.range nc).map (fun k => y.countP (fun c => c == Int.ofNat k))

/-- Elementwise sum of a list of count rows (the claim's "summing the
per-rule class-count rows over all rules"). -/
def sumRows (nc : Nat) (T : List (List Nat)) : List Nat :=
  T.foldr (fun row acc => List.zipWith (· + ·) row acc) (List.replicate nc 0)

/-! ### The reachability matrix that claim C2 describes (kept with the
definitions; it is stated from the claim's words, not from the code) -/

/-- Stated from the claim's words, for comparison with decision_pathE:
row i is true at an instance exactly when NO earlier rule claimed it,
claiming being a raw match while still unclaimed — which unfolds to "no
rule among the first i raw-matches the instance". -/
def decision_path_claimed (M : SBRL) (x : List (List Int)) :
    Option (List (List Bool)) :=
  match optList (fun r => satArr (r.is_satisfy x false)) M.rule_list with
  | none => none
  | some masks =>
    some ((List.range M.rule_list.length).map (fun i =>
      (List.range x.length).map (fun j =>
        (masks.take i).all (fun m => !(m.getD j false)))))

/-! ### Helper lemmas: optList, masks, lengths -/

lemma optList_cons_eq_some {α β : Type} {f : α → Option β} {a : α} {l : List α}
    {l' : List β} (h : optList f (a :: l) = some l') :
    ∃ b bs, f a = some b ∧ optList f l = some bs ∧ l' = b :: bs := by
  simp only [optList, Option.bind_eq_bind, Option.bind_eq_some, Option.pure_def,
    Option.some.injEq] at h
  obtain ⟨b, hb, bs, hbs, hl'⟩ := h
  exact ⟨b, bs, hb, hbs, hl'.symm⟩

lemma optList_some_length {α β : Type} {f : α → Option β} :
    ∀ {l : List α} {l' : List β}, optList f l = some l' → l'.length = l.length := by
  intro l
  induction l with
  | nil =>
    intro l' h
    simp only [optList, Option.some.injEq] at h
    simp [← h]
  | cons a t ih =>
    intro l' h
    obtain ⟨b, bs, _, hbs, hl'⟩ := optList_cons_eq_some h
    subst hl'
    simp [ih hbs]

lemma optList_some_mem {α β : Type} {f : α → Option β} :
    ∀ {l : List α} {l' : List β}, optList f l = some l' →
      ∀ b ∈ l', ∃ a ∈ l, f a = some b := by
  intro l
  induction l with
  | nil =>
    intro l' h
    simp only [optList, Option.some.injEq] at h
    simp [← h]
  | cons a t ih =>
    intro l' h
    obtain ⟨b, bs, hb, hbs, hl'⟩ := optList_cons_eq_some h
    subst hl'
    intro c hc
    rcases List.mem_cons.mp hc with hc | hc
    · exact ⟨a, List.mem_cons_self a t, hc ▸ hb⟩
    · obtain ⟨a', ha', hfa'⟩ := ih hbs c hc
      exact ⟨a', List.mem_cons_of_mem a ha', hfa'⟩

lemma optList_eq_none_iff {α β : Type} {f : α → Option β} :
    ∀ {l : List α}, optList f l = none ↔ ∃ a ∈ l, f a = none := by
  intro l
  induction l with
  | nil => simp [optList]
  | cons a t ih =>
    constructor
    · intro h
      simp only [optList, Option.bind_eq_bind] at h
      cases hfa : f a with
      | none => exact ⟨a, List.mem_cons_self a t, hfa⟩
      | some b =>
        rw [hfa] at h
        simp only [Option.some_bind] at h
        cases hot : optList f t with
        | none =>
          obtain ⟨a', ha', hfa'⟩ := ih.mp hot
          exact ⟨a', List.mem_cons_of_mem a ha', hfa'⟩
        | some bs => rw [hot] at h; simp at h
    · rintro ⟨a', ha', hfa'⟩
      rcases List.mem_cons.mp ha' with h | h
      · subst h; simp [optList, hfa']
      · simp only [optList, Option.bind_eq_bind]
        cases hfa : f a with
        | none => simp
        | some b => simp [ih.mpr ⟨a', h, hfa'⟩]

lemma getD_of_getElem {α : Type} {l : List α} {j : Nat} (d : α) (h : j < l.length) :
    l.getD j d = l[j] := by
  simp [List.getD_eq_getElem?_getD, List.getElem?_eq_getElem h]

lemma getD_zipWith_of_lt {α β γ : Type} (f : α → β → γ) (a : List α) (b : List β)
    (da : α) (db : β) (dc : γ) (j : Nat) (hja : j < a.length) (hjb : j < b.length) :
    (List.zipWith f a b).getD j dc = f (a.getD j da) (b.getD j db) := by
  have hl : j < (List.zipWith f a b).length := by
    rw [List.length_zipWith]; omega
  rw [getD_of_getElem dc hl, getD_of_getElem da hja, getD_of_getElem db hjb]
  exact List.getElem_zipWith ..

lemma getD_replicate_of_lt {α : Type} {n j : Nat} (v d : α) (h : j < n) :
    (List.replicate n v).getD j d = v := by
  rw [getD_of_getElem d (by simpa using h)]
  exact List.getElem_replicate ..

lemma zipAnd_length {a b : List Bool} {n : Nat}
    (ha : a.length = n) (hb : b.length = n) : (zipAnd a b).length = n := by
  simp [zipAnd, List.length_zipWith, ha, hb]

lemma zipXor_length {a b : List Bool} {n : Nat}
    (ha : a.length = n) (hb : b.length = n) : (zipXor a b).length = n := by
  simp [zipXor, List.length_zipWith, ha, hb]

lemma zipAnd_getD {a b : List Bool} {n : Nat} (ha : a.length = n) (hb : b.length = n)
    {j : Nat} (hj : j < n) :
    (zipAnd a b).getD j false = (a.getD j false && b.getD j false) :=
  getD_zipWith_of_lt _ a b false false false j (ha ▸ hj) (hb ▸ hj)

lemma zipXor_getD {a b : List Bool} {n : Nat} (ha : a.length = n) (hb : b.length = n)
    {j : Nat} (hj : j < n) :
    (zipXor a b).getD j false = Bool.xor (a.getD j false) (b.getD j false) :=
  getD_zipWith_of_lt _ a b false false false j (ha ▸ hj) (hb ▸ hj)

lemma zipAnd_replicate_true {un : List Bool} {n : Nat} (h : un.length = n) :
    zipAnd (List.replicate n true) un = un := by
  induction un generalizing n with
  | nil => subst h; rfl
  | cons u t ih =>
    subst h
    simp only [List.length_cons, List.replicate_succ, zipAnd, List.zipWith_cons_cons,
      Bool.true_and]
    exact congrArg (u :: ·) (ih rfl)

lemma condMaskE_length {x : List (List Int)} {idx cat : Int} {m : List Bool}
    (h : condMaskE x idx cat = some m) : m.length = x.length :=
  optList_some_length h

lemma andMasksE_length {ms : List (List Bool)} {m : List Bool} {n : Nat}
    (hall : ∀ mm ∈ ms, mm.length = n) (h : andMasksE ms = some m) (hne : ms ≠ []) :
    m.length = n := by
  cases ms with
  | nil => exact absurd rfl hne
  | cons m0 rest =>
    simp only [andMasksE, Option.some.injEq] at h
    subst h
    clear hne
    induction rest generalizing m0 with
    | nil => exact hall m0 (by simp)
    | cons b t ih =>
      simp only [List.foldl_cons]
      refine ih (zipAnd m0 b) (fun mm hmm => ?_)
      rcases List.mem_cons.mp hmm with h | h
      · subst h
        exact zipAnd_length (hall m0 (by simp)) (hall b (by simp))
      · exact hall mm (by simp [h])

lemma is_satisfy_arr_length {r : Rule} {x : List (List Int)} {pc : Bool} {m : List Bool}
    (h : r.is_satisfy x pc = some (SatRes.arr m)) : m.length = x.length := by
  cases hh : r.feature_indices.head? with
  | none =>
    simp only [Rule.is_satisfy, hh] at h
    exact absurd h (by simp)
  | some f0 =>
    simp only [Rule.is_satisfy, hh] at h
    by_cases hg : (f0 == -1 && r.feature_indices.length == 1) = true
    · rw [if_pos hg] at h
      simp only [Option.some.injEq, SatRes.arr.injEq] at h
      simp [← h]
    · rw [if_neg hg] at h
      cases ho : optList (fun p => condMaskE x p.1 p.2) (r.feature_indices.zip r.categories) with
      | none => rw [ho] at h; simp at h
      | some ms =>
        rw [ho] at h
        cases pc with
        | true => simp at h
        | false =>
          simp only [Bool.false_eq_true, if_false, Option.map_eq_some'] at h
          obtain ⟨mm, hmm, harr⟩ := h
          cases harr
          have hne : ms ≠ [] := by
            intro he; subst he; simp [andMasksE] at hmm
          refine andMasksE_length (fun m2 hm2 => ?_) hmm hne
          obtain ⟨p, _, hp⟩ := optList_some_mem ho m2 hm2
          exact condMaskE_length hp

/-- The default rule's combined mask is all-true (is_satisfy lines 84-85). -/
lemma is_satisfy_default {r : Rule} (hd : r.isDefaultRule = true)
    (x : List (List Int)) (pc : Bool) :
    r.is_satisfy x pc = some (SatRes.arr (List.replicate x.length true)) := by
  unfold Rule.isDefaultRule at hd
  rw [Bool.and_eq_true, beq_iff_eq, beq_iff_eq] at hd
  simp [Rule.is_satisfy, hd.1, hd.2]

/-! ### Traversal invariants -/

/-- decision_support on a list ending in the default rule: each traversal
step claims exactly the still-unclaimed raw matches, so per column the
recorded rows contain exactly one true cell for each initially-unclaimed
instance. -/
lemma dsLoop_total (x : List (List Int)) :
    ∀ (rules' : List Rule) (d : Rule) (un : List Bool),
      d.isDefaultRule = true →
      (∀ r ∈ rules' ++ [d], ∃ m, r.is_satisfy x false = some (SatRes.arr m)) →
      un.length = x.length →
      ∃ S, dsLoop x false (rules' ++ [d]) un = some S ∧
        S.length = rules'.length + 1 ∧
        (∀ mm ∈ S, mm.length = x.length) ∧
        (∀ j, j < x.length → S.countP (fun mm => mm.getD j false) =
          if un.getD j false then 1 else 0) := by
  intro rules'
  induction rules' with
  | nil =>
    intro d un hd _ hun
    refine ⟨[un], ?_, by simp, ?_, ?_⟩
    · simp only [List.nil_append, dsLoop, is_satisfy_default hd, Bool.false_eq_true,
        if_false, List.append_eq, zipAnd_replicate_true hun]
    · intro mm hmm
      rw [List.mem_singleton] at hmm
      simp [hmm, hun]
    · intro j hj
      simp [List.countP_cons]
  | cons r rs ih =>
    intro d un hd hWF hun
    obtain ⟨m, hm⟩ := hWF r (by simp)
    have hmlen : m.length = x.length := is_satisfy_arr_length hm
    have hslen : (zipAnd m un).length = x.length := zipAnd_length hmlen hun
    have hu2len : (zipXor (zipAnd m un) un).length = x.length := zipXor_length hslen hun
    obtain ⟨S', hS', hSlen, hSrow, hScnt⟩ :=
      ih d (zipXor (zipAnd m un) un) hd
        (fun r' hr' => hWF r' (List.mem_cons_of_mem r hr')) hu2len
    refine ⟨zipAnd m un :: S', ?_, by simp [hSlen], ?_, ?_⟩
    · simp only [List.cons_append, dsLoop, hm, Bool.false_eq_true, if_false,
        List.append_eq, hS']
    · intro mm hmm
      rcases List.mem_cons.mp hmm with h | h
      · simp [h, hslen]
      · exact hSrow mm h
    · intro j hj
      rw [List.countP_cons, hScnt j hj]
      have h1 : (zipAnd m un).getD j false = (m.getD j false && un.getD j false) :=
        zipAnd_getD hmlen hun hj
      have h2 : (zipXor (zipAnd m un) un).getD j false =
          Bool.xor ((zipAnd m un).getD j false) (un.getD j false) :=
        zipXor_getD hslen hun hj
      rw [h2, h1]
      cases m.getD j false <;> cases un.getD j false <;> simp

/-- decision_support never fails (and its rows all have batch length)
whenever every rule's combined mask is defined on the batch — no shape
precondition relating the batch to n_features is involved. -/
lemma dsLoop_some (x : List (List Int)) :
    ∀ (rules : List Rule) (un : List Bool),
      (∀ r ∈ rules, ∃ m, r.is_satisfy x false = some (SatRes.arr m)) →
      un.length = x.length →
      ∃ S, dsLoop x false rules un = some S ∧ S.length = rules.length ∧
        (∀ mm ∈ S, mm.length = x.length) := by
  intro rules
  induction rules with
  | nil => intro un _ _; exact ⟨[], rfl, rfl, by simp⟩
  | cons r rs ih =>
    intro un hWF hun
    obtain ⟨m, hm⟩ := hWF r (by simp)
    have hmlen : m.length = x.length := is_satisfy_arr_length hm
    have hslen : (zipAnd m un).length = x.length := zipAnd_length hmlen hun
    obtain ⟨S', hS', hSlen, hSrow⟩ :=
      ih (zipXor (zipAnd m un) un)
        (fun r' hr' => hWF r' (List.mem_cons_of_mem r hr'))
        (zipXor_length hslen hun)
    refine ⟨zipAnd m un :: S', ?_, by simp [hSlen], ?_⟩
    · simp only [dsLoop, hm, Bool.false_eq_true, if_false, List.append_eq, hS']
    · intro mm hmm
      rcases List.mem_cons.mp hmm with h | h
      · simp [h, hslen]
      · exact hSrow mm h

/-- predict_prob on a list ending in the default rule: every initially
unclaimed instance ends up with some rule's output row written, and
already-claimed instances keep their rows. -/
lemma ppLoop_total (x : List (List Int)) :
    ∀ (rules' : List Rule) (d : Rule) (un : List Bool) (y : List (Option (List ℚ))),
      d.isDefaultRule = true →
      (∀ r ∈ rules' ++ [d], ∃ m, r.is_satisfy x false = some (SatRes.arr m)) →
      un.length = x.length → y.length = x.length →
      ∃ Y, ppLoop x (rules' ++ [d]) un y = some Y ∧ Y.length = x.length ∧
        ∀ j, j < x.length →
          (un.getD j false = true → ∃ r ∈ rules' ++ [d], Y.getD j none = some r.output) ∧
          (un.getD j false = false → Y.getD j none = y.getD j none) := by
  intro rules'
  induction rules' with
  | nil =>
    intro d un y hd _ hun hy
    have hy2len : (List.zipWith (fun yo b => if b then some d.output else yo) y un).length
        = x.length := by
      rw [List.length_zipWith, hun, hy]; omega
    refine ⟨List.zipWith (fun yo b => if b then some d.output else yo) y un, ?_,
      hy2len, ?_⟩
    · have hhead : satArr (d.is_satisfy x false) =
          some (List.replicate x.length true) := by
        rw [is_satisfy_default hd]; rfl
      simp only [List.nil_append, ppLoop, hhead, List.append_eq,
        zipAnd_replicate_true hun]
    · intro j hj
      have hgd : (List.zipWith (fun yo b => if b then some d.output else yo) y un).getD
          j none = if un.getD j false then some d.output else y.getD j none :=
        getD_zipWith_of_lt _ y un none false none j (by omega) (by omega)
      constructor
      · intro hu; rw [hgd, hu]; exact ⟨d, by simp, by simp⟩
      · intro hu; rw [hgd, hu]; simp
  | cons r rs ih =>
    intro d un y hd hWF hun hy
    obtain ⟨m, hm⟩ := hWF r (by simp)
    have hmlen : m.length = x.length := is_satisfy_arr_length hm
    have hslen : (zipAnd m un).length = x.length := zipAnd_length hmlen hun
    have hy2len : (List.zipWith (fun yo b => if b then some r.output else yo) y
        (zipAnd m un)).length = x.length := by
      rw [List.length_zipWith, hy, hslen]; omega
    obtain ⟨Y, hY, hYlen, hYj⟩ :=
      ih d (zipXor (zipAnd m un) un)
        (List.zipWith (fun yo b => if b then some r.output else yo) y (zipAnd m un))
        hd (fun r' hr' => hWF r' (List.mem_cons_of_mem r hr'))
        (zipXor_length hslen hun) hy2len
    refine ⟨Y, ?_, hYlen, ?_⟩
    · have hhead : satArr (r.is_satisfy x false) = some m := by rw [hm]; rfl
      simp only [List.cons_append, ppLoop, hhead, List.append_eq, hY]
    · intro j hj
      have h1 : (zipAnd m un).getD j false = (m.getD j false && un.getD j false) :=
        zipAnd_getD hmlen hun hj
      have h2 : (zipXor (zipAnd m un) un).getD j false =
          Bool.xor ((zipAnd m un).getD j false) (un.getD j false) :=
        zipXor_getD hslen hun hj
      have hy2 : (List.zipWith (fun yo b => if b then some r.output else yo) y
          (zipAnd m un)).getD j none =
          if (zipAnd m un).getD j false then some r.output else y.getD j none :=
        getD_zipWith_of_lt _ y (zipAnd m un) none false none j (by omega) (by omega)
      constructor
      · intro hu
        cases hmj : m.getD j false with
        | true =>
          have hsat : (zipAnd m un).getD j false = true := by rw [h1, hmj, hu]; rfl
          have hun2 : (zipXor (zipAnd m un) un).getD j false = false := by
            rw [h2, hsat, hu]; rfl
          have := (hYj j hj).2 hun2
          rw [this, hy2, hsat]
          exact ⟨r, by simp, by simp⟩
        | false =>
          have hun2 : (zipXor (zipAnd m un) un).getD j false = true := by
            rw [h2, h1, hmj, hu]; rfl
          obtain ⟨r', hr', hout⟩ := (hYj j hj).1 hun2
          exact ⟨r', List.mem_cons_of_mem r hr', hout⟩
      · intro hu
        have hsat : (zipAnd m un).getD j false = false := by
          rw [h1, hu]; simp
        have hun2 : (zipXor (zipAnd m un) un).getD j false = false := by
          rw [h2, hsat, hu]; rfl
        have := (hYj j hj).2 hun2
        rw [this, hy2, hsat]
        simp

/-- decision_path rows: row i is the initial mask XORed with the parity
of the raw matches of the first i rules — each raw match toggles the
"unclaimed" bit, it does not clear it. -/
lemma dpLoop_rows (x : List (List Int)) :
    ∀ (rules : List Rule) (un : List Bool),
      (∀ r ∈ rules, ∃ m, r.is_satisfy x false = some (SatRes.arr m)) →
      un.length = x.length →
      ∃ masks P, optList (fun r => satArr (r.is_satisfy x false)) rules = some masks ∧
        dpLoop x rules un = some P ∧ P.length = rules.length ∧
        ∀ i, i < rules.length → ∀ j, j < x.length →
          (P.getD i []).getD j false =
            Bool.xor (un.getD j false)
              (decide ((masks.take i).countP (fun mm => mm.getD j false) % 2 = 1)) := by
  intro rules
  induction rules with
  | nil =>
    intro un _ _
    exact ⟨[], [], rfl, rfl, rfl, by intro i hi; simp at hi⟩
  | cons r rs ih =>
    intro un hWF hun
    obtain ⟨m, hm⟩ := hWF r (by simp)
    have hmlen : m.length = x.length := is_satisfy_arr_length hm
    obtain ⟨masks', P', hmk', hP', hPlen, hProw⟩ :=
      ih (zipXor m un) (fun r' hr' => hWF r' (List.mem_cons_of_mem r hr'))
        (zipXor_length hmlen hun)
    have hhead : satArr (r.is_satisfy x false) = some m := by rw [hm]; rfl
    refine ⟨m :: masks', un :: P', ?_, ?_, by simp [hPlen], ?_⟩
    · simp only [optList, hhead, Option.bind_eq_bind, Option.some_bind, hmk']
      rfl
    · simp only [dpLoop, hhead, List.append_eq, hP']
    · intro i hi j hj
      cases i with
      | zero => simp
      | succ i' =>
        have hi' : i' < rs.length := by simpa using hi
        have := hProw i' hi' j hj
        simp only [List.getD_cons_succ, List.take_succ_cons, List.countP_cons, this]
        have h2 : (zipXor m un).getD j false =
            Bool.xor (m.getD j false) (un.getD j false) := zipXor_getD hmlen hun hj
        rw [h2]
        generalize (masks'.take i').countP (fun mm => mm.getD j false) = c
        rcases Nat.mod_two_eq_zero_or_one c with hp | hp <;>
          cases m.getD j false <;> cases un.getD j false <;>
          simp [Nat.add_mod, hp]

/-! ### Support-conservation machinery -/

lemma zipWith_map_same {α β : Type} (h : β → β → β) (f g : α → β) :
    ∀ l : List α, List.zipWith h (l.map f) (l.map g) = l.map (fun a => h (f a) (g a)) := by
  intro l
  induction l with
  | nil => rfl
  | cons a t ih => simp [ih]

lemma boolSelect_subset {α : Type} {y : List α} {m : List Bool} :
    ∀ a ∈ boolSelect y m, a ∈ y := by
  intro a ha
  obtain ⟨⟨b, v⟩, hmem, hif⟩ := List.mem_filterMap.mp ha
  have hb : b ∈ y := (List.of_mem_zip hmem).1
  by_cases hv : v = true
  · subst hv; simp only [if_true] at hif; cases hif; exact hb
  · simp only [eq_false_of_ne_true hv] at hif; cases hif

lemma boolSelect_replicate_true {α : Type} :
    ∀ (y : List α) (n : Nat), y.length = n →
      boolSelect y (List.replicate n true) = y := by
  intro y
  induction y with
  | nil => intro n h; simp [boolSelect]
  | cons a t ih =>
    intro n h
    cases n with
    | zero => simp at h
    | succ n' =>
      simp only [List.replicate_succ, boolSelect, List.zip_cons_cons,
        List.filterMap_cons, if_true]
      have := ih n' (by simpa using h)
      simp only [boolSelect] at this
      rw [this]

lemma countP_select_split {α : Type} (p : α → Bool) :
    ∀ (y : List α) (m un : List Bool), y.length = un.length → m.length = un.length →
      (boolSelect y un).countP p =
        (boolSelect y (zipAnd m un)).countP p +
        (boolSelect y (zipXor (zipAnd m un) un)).countP p := by
  intro y
  induction y with
  | nil => intro m un _ _; simp [boolSelect]
  | cons a y' ih =>
    intro m un h1 h2
    cases un with
    | nil => simp at h1
    | cons u un' =>
      cases m with
      | nil => simp at h2
      | cons mv m' =>
        have h1' : y'.length = un'.length := by simpa using h1
        have h2' : m'.length = un'.length := by simpa using h2
        have hrec := ih m' un' h1' h2'
        cases u <;> cases mv <;>
          simp [boolSelect, zipAnd, zipXor, List.zip_cons_cons, List.filterMap_cons,
            List.countP_cons, hrec] <;>
          simp only [boolSelect, zipAnd, zipXor] at hrec <;> omega

lemma supportRowE_in_range {nc : Nat} {lbls : List Int}
    (h : ∀ c ∈ lbls, 0 ≤ c ∧ c < (nc : Int)) :
    supportRowE nc lbls = some (histC nc lbls) := by
  unfold supportRowE
  rw [if_pos]
  · unfold histC
    refine congrArg some (List.map_congr_left (fun k _ => ?_))
    refine List.countP_congr (fun c hc => ?_)
    have h0 := (h c hc).1
    unfold pyIdxInt
    rw [if_neg (by omega)]
  · rw [List.all_eq_true]
    intro c hc
    have := h c hc
    simp only [Bool.and_eq_true, decide_eq_true_eq]
    omega

lemma histC_length {nc : Nat} {y : List Int} : (histC nc y).length = nc := by
  unfold histC
  rw [List.length_map, List.length_range]

lemma zipAdd_replicate_zero :
    ∀ (row : List Nat) (nc : Nat), row.length = nc →
      List.zipWith (· + ·) row (List.replicate nc 0) = row := by
  intro row
  induction row with
  | nil => intro nc h; simp
  | cons a t ih =>
    intro nc h
    cases nc with
    | zero => simp at h
    | succ n' => simp [List.replicate_succ, ih n' (by simpa using h)]

/-- The per-rule class-count row of one captured set. -/
lemma rowFn_eval {nc : Nat} {y : List Int} {mm : List Bool}
    (hlen : y.length = mm.length) (hrange : ∀ c ∈ y, 0 ≤ c ∧ c < (nc : Int)) :
    (maskSelectE y mm).bind (supportRowE nc) = some (histC nc (boolSelect y mm)) := by
  unfold maskSelectE
  rw [if_pos hlen]
  simp only [Option.some_bind]
  exact supportRowE_in_range (fun c hc => hrange c (boolSelect_subset c hc))

/-- compute_support conserves labels: on a list ending in the default
rule, the rows of class counts sum to the histogram of the labels of the
still-unclaimed instances. -/
lemma csLoop_total (x : List (List Int)) (nc : Nat) (y : List Int) :
    ∀ (rules' : List Rule) (d : Rule) (un : List Bool),
      d.isDefaultRule = true →
      (∀ r ∈ rules' ++ [d], ∃ m, r.is_satisfy x false = some (SatRes.arr m)) →
      un.length = x.length → y.length = x.length →
      (∀ c ∈ y, 0 ≤ c ∧ c < (nc : Int)) →
      ∃ S T, dsLoop x false (rules' ++ [d]) un = some S ∧
        optList (fun mm => (maskSelectE y mm).bind (supportRowE nc)) S = some T ∧
        sumRows nc T = histC nc (boolSelect y un) := by
  intro rules'
  induction rules' with
  | nil =>
    intro d un hd _ hun hy hyr
    refine ⟨[un], [histC nc (boolSelect y un)], ?_, ?_, ?_⟩
    · simp only [List.nil_append, dsLoop, is_satisfy_default hd, Bool.false_eq_true,
        if_false, List.append_eq, zipAnd_replicate_true hun]
    · simp only [optList, rowFn_eval (by omega : y.length = un.length) hyr,
        Option.bind_eq_bind, Option.some_bind]
      rfl
    · show List.zipWith (· + ·) (histC nc (boolSelect y un)) (List.replicate nc 0) = _
      exact zipAdd_replicate_zero _ nc histC_length
  | cons r rs ih =>
    intro d un hd hWF hun hy hyr
    obtain ⟨m, hm⟩ := hWF r (by simp)
    have hmlen : m.length = x.length := is_satisfy_arr_length hm
    have hslen : (zipAnd m un).length = x.length := zipAnd_length hmlen hun
    have hu2len : (zipXor (zipAnd m un) un).length = x.length := zipXor_length hslen hun
    obtain ⟨S', T', hS', hT', hsum⟩ :=
      ih d (zipXor (zipAnd m un) un) hd
        (fun r' hr' => hWF r' (List.mem_cons_of_mem r hr')) hu2len hy hyr
    refine ⟨zipAnd m un :: S', histC nc (boolSelect y (zipAnd m un)) :: T', ?_, ?_, ?_⟩
    · simp only [List.cons_append, dsLoop, hm, Bool.false_eq_true, if_false,
        List.append_eq, hS']
    · simp only [optList, rowFn_eval (by omega : y.length = (zipAnd m un).length) hyr,
        Option.bind_eq_bind, Option.some_bind, hT']
      rfl
    · show List.zipWith (· + ·) (histC nc (boolSelect y (zipAnd m un))) (sumRows nc T') = _
      rw [hsum]
      unfold histC
      rw [zipWith_map_same]
      refine List.map_congr_left (fun k _ => ?_)
      exact (countP_select_split _ y m un (by omega) (by omega)).symm

lemma optList_some_of_forall {α β : Type} {f : α → Option β} :
    ∀ {l : List α}, (∀ a ∈ l, ∃ b, f a = some b) → ∃ l', optList f l = some l' := by
  intro l
  induction l with
  | nil => intro _; exact ⟨[], rfl⟩
  | cons a t ih =>
    intro h
    obtain ⟨b, hb⟩ := h a (by simp)
    obtain ⟨l', hl'⟩ := ih (fun a' ha' => h a' (List.mem_cons_of_mem a ha'))
    exact ⟨b :: l', by simp [optList, hb, hl']⟩

/-- predict_prob's loop never fails when every rule's mask is defined. -/
lemma ppLoop_some (x : List (List Int)) :
    ∀ (rules : List Rule) (un : List Bool) (y : List (Option (List ℚ))),
      (∀ r ∈ rules, ∃ m, r.is_satisfy x false = some (SatRes.arr m)) →
      ∃ Y, ppLoop x rules un y = some Y := by
  intro rules
  induction rules with
  | nil => intro un y _; exact ⟨y, rfl⟩
  | cons r rs ih =>
    intro un y hWF
    obtain ⟨m, hm⟩ := hWF r (by simp)
    have hhead : satArr (r.is_satisfy x false) = some m := by rw [hm]; rfl
    obtain ⟨Y, hY⟩ := ih (zipXor (zipAnd m un) un)
      (List.zipWith (fun yo b => if b then some r.output else yo) y (zipAnd m un))
      (fun r' hr' => hWF r' (List.mem_cons_of_mem r hr'))
    exact ⟨Y, by simp only [ppLoop, hhead, hY]⟩

/-! ### Claim C1 -/

/-- C1: for every rule list whose last rule is the default rule and every
categorical batch on which the rules' masks are defined,
decision_support(batch) returns an (n_rules x n_instances) boolean
matrix with exactly one true cell per column, and predict_prob(batch)
writes every row of its (n_instances x n_classes) result — the default
rule absorbs every instance left unclaimed. -/
theorem C1_total_coverage (M : SBRL) (x : List (List Int))
    (hne : M.rule_list ≠ [])
    (hd : (M.rule_list.getLast hne).isDefaultRule = true)
    (hWF : ∀ r ∈ M.rule_list, ∃ m, r.is_satisfy x false = some (SatRes.arr m))
    (hout : ∀ r ∈ M.rule_list, r.output.length = M.n_classes) :
    (∃ S, decision_supportE M x false = some S ∧
      S.length = M.rule_list.length ∧
      (∀ mm ∈ S, mm.length = x.length) ∧
      (∀ j, j < x.length → S.countP (fun mm => mm.getD j false) = 1)) ∧
    (∃ Y, predict_probE M x = some Y ∧ Y.length = x.length ∧
      ∀ p ∈ Y, ∃ row, p = some row ∧ row.length = M.n_classes) := by
  have hsplit : M.rule_list.dropLast ++ [M.rule_list.getLast hne] = M.rule_list :=
    List.dropLast_append_getLast hne
  have hWF' : ∀ r ∈ M.rule_list.dropLast ++ [M.rule_list.getLast hne],
      ∃ m, r.is_satisfy x false = some (SatRes.arr m) := by
    intro r hr; exact hWF r (hsplit ▸ hr)
  constructor
  · obtain ⟨S, hS, hSlen, hSrow, hScnt⟩ :=
      dsLoop_total x M.rule_list.dropLast (M.rule_list.getLast hne)
        (List.replicate x.length true) hd hWF' (by simp)
    rw [hsplit] at hS
    refine ⟨S, hS, ?_, hSrow, ?_⟩
    · rw [hSlen, List.length_dropLast]
      have : M.rule_list.length ≠ 0 := fun h => hne (List.length_eq_zero.mp h)
      omega
    · intro j hj
      rw [hScnt j hj, getD_replicate_of_lt true false hj]
      rfl
  · obtain ⟨Y, hY, hYlen, hYj⟩ :=
      ppLoop_total x M.rule_list.dropLast (M.rule_list.getLast hne)
        (List.replicate x.length true) (List.replicate x.length none)
        hd hWF' (by simp) (by simp)
    rw [hsplit] at hY hYj
    refine ⟨Y, hY, hYlen, ?_⟩
    intro p hp
    obtain ⟨j, hjY, hpj⟩ := List.getElem_of_mem hp
    have hj : j < x.length := by omega
    have h1 := (hYj j hj).1 (by rw [getD_replicate_of_lt true false hj])
    obtain ⟨r, hrmem, hout'⟩ := h1
    rw [getD_of_getElem none hjY, hpj] at hout'
    exact ⟨r.output, hout', hout r hrmem⟩

/-- C1 witness: a two-rule list (one condition rule, then the default)
on a three-instance batch. -/
theorem C1_total_coverage_witness :
    (∃ S, decision_supportE
        (SBRL.mk [Rule.mk [0] [1] [9/10, 1/10] none,
          Rule.mk [-1] [-1] [3/10, 7/10] none] 2 1)
        [[1], [0], [1]] false = some S ∧
      S.length = 2 ∧ (∀ mm ∈ S, mm.length = 3) ∧
      (∀ j, j < 3 → S.countP (fun mm => mm.getD j false) = 1)) ∧
    (∃ Y, predict_probE
        (SBRL.mk [Rule.mk [0] [1] [9/10, 1/10] none,
          Rule.mk [-1] [-1] [3/10, 7/10] none] 2 1)
        [[1], [0], [1]] = some Y ∧ Y.length = 3 ∧
      ∀ p ∈ Y, ∃ row, p = some row ∧ row.length = 2) := by
  have h := C1_total_coverage
    (SBRL.mk [Rule.mk [0] [1] [9/10, 1/10] none,
      Rule.mk [-1] [-1] [3/10, 7/10] none] 2 1)
    [[1], [0], [1]] (by decide) (by decide)
    (by
      intro r hr
      fin_cases hr
      · exact ⟨[true, false, true], by decide⟩
      · exact ⟨[true, true, true], by decide⟩)
    (by intro r hr; fin_cases hr <;> decide)
  exact h

/-! ### Claim C6 -/

/-- C6: for every rule list ending in the default rule, every batch on
which the rules' masks are defined, and every label vector of matching
length with values in 0..n_classes-1, the per-rule class-count rows of
compute_support sum to the class histogram of the labels. -/
theorem C6_support_conservation (M : SBRL) (x : List (List Int)) (y : List Int)
    (hne : M.rule_list ≠ [])
    (hd : (M.rule_list.getLast hne).isDefaultRule = true)
    (hWF : ∀ r ∈ M.rule_list, ∃ m, r.is_satisfy x false = some (SatRes.arr m))
    (hy : y.length = x.length)
    (hyr : ∀ c ∈ y, 0 ≤ c ∧ c < (M.n_classes : Int)) :
    ∃ T, compute_supportE M x y = some T ∧
      sumRows M.n_classes T = histC M.n_classes y := by
  have hsplit : M.rule_list.dropLast ++ [M.rule_list.getLast hne] = M.rule_list :=
    List.dropLast_append_getLast hne
  have hWF' : ∀ r ∈ M.rule_list.dropLast ++ [M.rule_list.getLast hne],
      ∃ m, r.is_satisfy x false = some (SatRes.arr m) := by
    intro r hr; exact hWF r (hsplit ▸ hr)
  obtain ⟨S, T, hS, hT, hsum⟩ :=
    csLoop_total x M.n_classes y
      M.rule_list.dropLast (M.rule_list.getLast hne)
      (List.replicate x.length true) hd hWF' (by simp) hy hyr
  rw [hsplit] at hS
  refine ⟨T, ?_, ?_⟩
  · show (dsLoop x false M.rule_list (List.replicate x.length true)).bind _ = some T
    rw [hS]
    simpa using hT
  · rw [hsum, boolSelect_replicate_true y x.length hy]

/-- C6 witness: the spec's own worked example — two rules, batch
[[1],[0],[1]], labels [1,0,1]; the rows sum to the histogram [1, 2]. -/
theorem C6_support_conservation_witness :
    ∃ T, compute_supportE
        (SBRL.mk [Rule.mk [0] [1] [1/10, 9/10] none,
          Rule.mk [-1] [-1] [7/10, 3/10] none] 2 1)
        [[1], [0], [1]] [1, 0, 1] = some T ∧
      sumRows 2 T = histC 2 [1, 0, 1] := by
  have h := C6_support_conservation
    (SBRL.mk [Rule.mk [0] [1] [1/10, 9/10] none,
      Rule.mk [-1] [-1] [7/10, 3/10] none] 2 1)
    [[1], [0], [1]] [1, 0, 1] (by decide) (by decide)
    (by
      intro r hr
      fin_cases hr
      · exact ⟨[true, false, true], by decide⟩
      · exact ⟨[true, true, true], by decide⟩)
    (by decide) (by decide)
  exact h

/-! ### Claim C7 -/

/-- C7 counterexample: a model trained with n_features = 1, evaluated on
a batch whose rows have 2 features.  The claim demands a validation
error before traversal; every evaluation operation instead completes
normally. -/
theorem C7_counterexample :
    decision_supportE (SBRL.mk [Rule.mk [0] [1] [1, 0] none,
        Rule.mk [-1] [-1] [1, 0] none] 2 1) [[1, 5], [0, 7]] false =
      some [[true, false], [false, true]] ∧
    decision_pathE (SBRL.mk [Rule.mk [0] [1] [1, 0] none,
        Rule.mk [-1] [-1] [1, 0] none] 2 1) [[1, 5], [0, 7]] =
      some [[true, true], [false, true]] ∧
    predict_probE (SBRL.mk [Rule.mk [0] [1] [1, 0] none,
        Rule.mk [-1] [-1] [1, 0] none] 2 1) [[1, 5], [0, 7]] =
      some [some [1, 0], some [1, 0]] ∧
    compute_supportE (SBRL.mk [Rule.mk [0] [1] [1, 0] none,
        Rule.mk [-1] [-1] [1, 0] none] 2 1) [[1, 5], [0, 7]] [1, 0] =
      some [[0, 1], [1, 0]] ∧
    (SBRL.mk [Rule.mk [0] [1] [1, 0] none,
        Rule.mk [-1] [-1] [1, 0] none] 2 1).n_features = 1 ∧
    (∀ row ∈ ([[1, 5], [0, 7]] : List (List Int)), row.length ≠ 1) := by
  decide

/-- C7 amended: the evaluation operations perform no shape validation at
all.  n_features is never consulted (changing it does not change
decision_support), and whenever the columns the rules reference exist in
the batch — whatever the batch's width — every operation completes
without error; a missing column or a label-length mismatch would surface
only during traversal as an indexing failure. -/
theorem C7_no_validation (M : SBRL) (x : List (List Int)) (y : List Int) (d : Nat)
    (hWF : ∀ r ∈ M.rule_list, ∃ m, r.is_satisfy x false = some (SatRes.arr m))
    (hy : y.length = x.length)
    (hyr : ∀ c ∈ y, 0 ≤ c ∧ c < (M.n_classes : Int)) :
    (decision_supportE M x false).isSome ∧
    (decision_pathE M x).isSome ∧
    (predict_probE M x).isSome ∧
    (compute_supportE M x y).isSome ∧
    decision_supportE (SBRL.mk M.rule_list M.n_classes d) x false =
      decision_supportE M x false := by
  obtain ⟨S, hS, hSlen, hSrow⟩ :=
    dsLoop_some x M.rule_list (List.replicate x.length true) hWF (by simp)
  obtain ⟨masks, P, _, hP, _, _⟩ :=
    dpLoop_rows x M.rule_list (List.replicate x.length true) hWF (by simp)
  obtain ⟨Y, hY⟩ := ppLoop_some x M.rule_list (List.replicate x.length true)
    (List.replicate x.length none) hWF
  refine ⟨by simp [decision_supportE, hS], by simp [decision_pathE, hP],
    by simp [predict_probE, hY], ?_, rfl⟩
  have hrow : ∀ mm ∈ S, ∃ row,
      (maskSelectE y mm).bind (supportRowE M.n_classes) = some row := by
    intro mm hmm
    exact ⟨_, rowFn_eval (by rw [hy, hSrow mm hmm]) hyr⟩
  obtain ⟨T, hT⟩ := optList_some_of_forall hrow
  show ((dsLoop x false M.rule_list (List.replicate x.length true)).bind _).isSome
  rw [hS]
  simp only [Option.some_bind]
  have hfin : (optList (fun mm =>
      (maskSelectE y mm).bind (supportRowE M.n_classes)) S).isSome := by
    rw [hT]; rfl
  exact hfin

/-- C7 witness: the amended statement at the counterexample's mismatched
batch (n_features = 1, rows of width 2, and n_features overridden to 5
without effect). -/
theorem C7_no_validation_witness :
    (decision_supportE (SBRL.mk [Rule.mk [0] [1] [1, 0] none,
        Rule.mk [-1] [-1] [1, 0] none] 2 1) [[1, 5], [0, 7]] false).isSome ∧
    (decision_pathE (SBRL.mk [Rule.mk [0] [1] [1, 0] none,
        Rule.mk [-1] [-1] [1, 0] none] 2 1) [[1, 5], [0, 7]]).isSome ∧
    (predict_probE (SBRL.mk [Rule.mk [0] [1] [1, 0] none,
        Rule.mk [-1] [-1] [1, 0] none] 2 1) [[1, 5], [0, 7]]).isSome ∧
    (compute_supportE (SBRL.mk [Rule.mk [0] [1] [1, 0] none,
        Rule.mk [-1] [-1] [1, 0] none] 2 1) [[1, 5], [0, 7]] [1, 0]).isSome ∧
    decision_supportE (SBRL.mk [Rule.mk [0] [1] [1, 0] none,
        Rule.mk [-1] [-1] [1, 0] none] 2 5) [[1, 5], [0, 7]] false =
      decision_supportE (SBRL.mk [Rule.mk [0] [1] [1, 0] none,
        Rule.mk [-1] [-1] [1, 0] none] 2 1) [[1, 5], [0, 7]] false := by
  have h := C7_no_validation
    (SBRL.mk [Rule.mk [0] [1] [1, 0] none,
      Rule.mk [-1] [-1] [1, 0] none] 2 1)
    [[1, 5], [0, 7]] [1, 0] 5
    (by
      intro r hr
      fin_cases hr
      · exact ⟨[true, false], by decide⟩
      · exact ⟨[true, true], by decide⟩)
    (by decide) (by decide)
  exact h

/-! ### Claim C2 -/

/-- C2 counterexample: two copies of the same rule before the default.
The code's decision_path XORs the raw match into the mask, so the
instance claimed by rule 0 is re-marked unclaimed by rule 1's raw match,
and row 2 reports it as having reached the default rule — while the
claim's reachability reading (no earlier rule claimed it) demands false
there. -/
theorem C2_counterexample :
    decision_pathE (SBRL.mk [Rule.mk [0] [1] [1] none, Rule.mk [0] [1] [1] none,
        Rule.mk [-1] [-1] [1] none] 1 1) [[1]] =
      some [[true], [false], [true]] ∧
    decision_path_claimed (SBRL.mk [Rule.mk [0] [1] [1] none, Rule.mk [0] [1] [1] none,
        Rule.mk [-1] [-1] [1] none] 1 1) [[1]] =
      some [[true], [false], [false]] ∧
    decision_pathE (SBRL.mk [Rule.mk [0] [1] [1] none, Rule.mk [0] [1] [1] none,
        Rule.mk [-1] [-1] [1] none] 1 1) [[1]] ≠
      decision_path_claimed (SBRL.mk [Rule.mk [0] [1] [1] none, Rule.mk [0] [1] [1] none,
        Rule.mk [-1] [-1] [1] none] 1 1) [[1]] := by
  refine ⟨by decide, by decide, by decide⟩

/-- C2 amended: row i of decision_path records the running mask obtained
by XORing each earlier rule's RAW match into the all-true mask — an
instance's row-i entry is true exactly when an even number of the first
i rules raw-match it (so a second raw match re-marks a claimed instance
as unclaimed, unlike decision_support's subset-removal). -/
theorem C2_path_parity (M : SBRL) (x : List (List Int))
    (hWF : ∀ r ∈ M.rule_list, ∃ m, r.is_satisfy x false = some (SatRes.arr m)) :
    ∃ masks P,
      optList (fun r => satArr (r.is_satisfy x false)) M.rule_list = some masks ∧
      decision_pathE M x = some P ∧
      P.length = M.rule_list.length ∧
      ∀ i, i < M.rule_list.length → ∀ j, j < x.length →
        ((P.getD i []).getD j false = true ↔
          (masks.take i).countP (fun mm => mm.getD j false) % 2 = 0) := by
  obtain ⟨masks, P, hmk, hP, hPlen, hrow⟩ :=
    dpLoop_rows x M.rule_list (List.replicate x.length true) hWF (by simp)
  refine ⟨masks, P, hmk, hP, hPlen, fun i hi j hj => ?_⟩
  rw [hrow i hi j hj, getD_replicate_of_lt true false hj]
  generalize (masks.take i).countP (fun mm => mm.getD j false) = c
  rcases Nat.mod_two_eq_zero_or_one c with hp | hp <;> simp [hp]

/-- C2 witness: the amended parity statement at the counterexample's
duplicated-rule list. -/
theorem C2_path_parity_witness :
    ∃ masks P,
      optList (fun r => satArr (r.is_satisfy [[1]] false))
        (SBRL.mk [Rule.mk [0] [1] [1] none, Rule.mk [0] [1] [1] none,
          Rule.mk [-1] [-1] [1] none] 1 1).rule_list = some masks ∧
      decision_pathE (SBRL.mk [Rule.mk [0] [1] [1] none, Rule.mk [0] [1] [1] none,
        Rule.mk [-1] [-1] [1] none] 1 1) [[1]] = some P ∧
      P.length = 3 ∧
      ∀ i, i < 3 → ∀ j, j < 1 →
        ((P.getD i []).getD j false = true ↔
          (masks.take i).countP (fun mm => mm.getD j false) % 2 = 0) := by
  have h := C2_path_parity
    (SBRL.mk [Rule.mk [0] [1] [1] none, Rule.mk [0] [1] [1] none,
      Rule.mk [-1] [-1] [1] none] 1 1) [[1]]
    (by
      intro r hr
      fin_cases hr
      · exact ⟨[true], by decide⟩
      · exact ⟨[true], by decide⟩
      · exact ⟨[true], by decide⟩)
  exact h

/-! ### Claim C4 -/

/-- C4: decision_support in per-condition mode.  is_satisfy does produce
the per-condition mask list, but decision_support assigns that list into
one row of its preallocated (n_rules, n_instances) boolean matrix — a
broadcast that fails for any rule with two conditions (and for the
default rule's iterated all-true array on batches with two or more
instances), so the call raises instead of returning the per-condition
masks its own docstring and the claim describe.  Evaluated at the
failing input: the two-condition rule crashes per-condition mode while
the plain mode succeeds. -/
theorem C4_per_condition_broadcast_failure :
    decision_supportE (SBRL.mk [Rule.mk [0, 1] [0, 0] [1] none,
        Rule.mk [-1] [-1] [1] none] 1 2) [[0, 0]] true = none ∧
    (Rule.mk [0, 1] [0, 0] [1] none).is_satisfy [[0, 0]] true =
      some (SatRes.conds [[true], [true]]) ∧
    decision_supportE (SBRL.mk [Rule.mk [0, 1] [0, 0] [1] none,
        Rule.mk [-1] [-1] [1] none] 1 2) [[0, 0]] false =
      some [[true], [false]] ∧
    decision_supportE (SBRL.mk [Rule.mk [-1] [-1] [1] none] 1 1)
      [[0], [1]] true = none := by
  refine ⟨by decide, by decide, by decide, by decide⟩

/-! ### Claim C5 -/

/-- C5: for a non-default rule with parallel condition lists, the AND of
the per-condition masks returned by is_satisfy(per_condition=True) is
exactly the combined mask returned by is_satisfy(per_condition=False). -/
theorem C5_per_condition_decomposition (r : Rule) (x : List (List Int))
    (hnd : r.isDefaultRule = false)
    (hne : r.feature_indices ≠ [])
    (hlen : r.categories.length = r.feature_indices.length) :
    ∀ ms, r.is_satisfy x true = some (SatRes.conds ms) →
      ∃ m, andMasksE ms = some m ∧ r.is_satisfy x false = some (SatRes.arr m) := by
  intro ms hms
  cases hfi : r.feature_indices with
  | nil => exact absurd hfi hne
  | cons f0 t =>
    have hh : r.feature_indices.head? = some f0 := by rw [hfi]; rfl
    have hg : (f0 == -1 && r.feature_indices.length == 1) = false := by
      have : r.isDefaultRule = (f0 == -1 && r.feature_indices.length == 1) := by
        unfold Rule.isDefaultRule
        rw [hh]
        simp
      rw [← this, hnd]
    simp only [Rule.is_satisfy, hh, hg, Bool.false_eq_true, if_false] at hms ⊢
    cases ho : optList (fun p => condMaskE x p.1 p.2)
        (r.feature_indices.zip r.categories) with
    | none => rw [ho] at hms; exact absurd hms (by simp)
    | some ms' =>
      rw [ho] at hms
      simp only [if_true, Option.some.injEq, SatRes.conds.injEq] at hms
      rw [hms]
      have hmslen : ms.length = r.feature_indices.length := by
        rw [← hms]
        have := optList_some_length ho
        rw [List.length_zip, hlen, min_self] at this
        exact this
      cases ms with
      | nil =>
        rw [hfi] at hmslen
        simp at hmslen
      | cons m0 mrest =>
        exact ⟨mrest.foldl zipAnd m0, rfl, rfl⟩

/-- C5 witness: a two-condition rule evaluated on a two-instance batch;
the AND of its two per-condition masks is the combined mask. -/
theorem C5_per_condition_decomposition_witness :
    ∃ m, andMasksE [[true, true], [true, false]] = some m ∧
      (Rule.mk [0, 1] [1, 2] [1] none).is_satisfy [[1, 2], [1, 3]] false =
        some (SatRes.arr m) := by
  have h := C5_per_condition_decomposition (Rule.mk [0, 1] [1, 2] [1] none)
    [[1, 2], [1, 3]] (by decide) (by decide) (by decide)
    [[true, true], [true, false]] (by decide)
  exact h

/-! ### Claim C10 -/

lemma optList_eq_map {α β : Type} {f : α → Option β} (g : α → β) :
    ∀ {l : List α}, (∀ a ∈ l, f a = some (g a)) → optList f l = some (l.map g) := by
  intro l
  induction l with
  | nil => intro _; rfl
  | cons a t ih =>
    intro h
    simp [optList, h a (by simp), ih (fun a' ha' => h a' (List.mem_cons_of_mem a ha'))]

/-- Negative index -1 on a nonempty row selects its last element —
numpy/Python negative indexing. -/
lemma pyGetE_neg_one {α : Type} (row : List α) (h : row ≠ []) :
    pyGetE row (-1) = row.getLast? := by
  have hl : 0 < row.length := List.length_pos.mpr h
  simp only [pyGetE]
  rw [if_pos (show (-1 : Int) < 0 by norm_num)]
  rw [if_neg (by omega)]
  have ht : ((-1 : Int) + row.length).toNat = row.length - 1 := by omega
  rw [ht]
  rw [List.get?_eq_getElem?]
  exact (List.getLast?_eq_getElem? row).symm

/-- Over a batch of nonempty rows, the condition mask for the sentinel
index -1 tests the LAST column of each row. -/
lemma condMask_neg_one (x : List (List Int)) (cat : Int)
    (hrow : ∀ row ∈ x, row ≠ []) :
    condMaskE x (-1) cat = some (x.map (fun row => row.getLast? == some cat)) := by
  unfold condMaskE
  refine optList_eq_map _ (fun row hr => ?_)
  rw [pyGetE_neg_one row (hrow row hr)]
  cases hL : row.getLast? with
  | none => exact absurd (List.getLast?_eq_none_iff.mp hL) (hrow row hr)
  | some v => rfl

/-- C10: a Rule whose feature_indices begin with -1 but have length > 1
is treated inconsistently.  is_satisfy does NOT take the default
shortcut: it evaluates all conditions, and the -1 condition tests the
batch's last column (negative indexing); describe, whose default test
checks only feature_indices[0] == -1, renders exactly such a rule as
DEFAULT with no condition clause. -/
theorem C10_default_sentinel_mismatch (r : Rule) (x : List (List Int))
    (fn : Option (List String)) (civ : List (Option (List ℚ)))
    (h0 : r.feature_indices.head? = some (-1))
    (h1 : 1 < r.feature_indices.length)
    (hrow : ∀ row ∈ x, row ≠ []) :
    (∀ pc, r.is_satisfy x pc =
      match optList (fun p => condMaskE x p.1 p.2)
          (r.feature_indices.zip r.categories) with
      | none => none
      | some ms => if pc then some (SatRes.conds ms)
        else (andMasksE ms).map SatRes.arr) ∧
    (∀ cat : Int, condMaskE x (-1) cat =
      some (x.map (fun row => row.getLast? == some cat))) ∧
    r.describeE fn civ "prob" =
      (outputText r "prob").map
        (fun o => "DEFAULT " ++ o ++ supportStr r (argmaxQ r.output)) := by
  refine ⟨?_, fun cat => condMask_neg_one x cat hrow, ?_⟩
  · intro pc
    have hg : ((-1 : Int) == -1 && r.feature_indices.length == 1) = false := by
      simp only [beq_self_eq_true, Bool.true_and, beq_eq_false_iff_ne]
      omega
    simp only [Rule.is_satisfy, h0, hg, Bool.false_eq_true, if_false]
  · cases ho : outputText r "prob" with
    | none => simp [Rule.describeE, ho]
    | some o => simp [Rule.describeE, ho, h0]

/-- C10 witness: the rule with indices [-1, 0] on a two-column batch —
is_satisfy ANDs a last-column test with the other condition, while
describe renders the rule as DEFAULT. -/
theorem C10_default_sentinel_mismatch_witness :
    ((∀ pc, (Rule.mk [-1, 0] [5, 1] [1] none).is_satisfy [[1, 5], [2, 3]] pc =
      match optList (fun p => condMaskE [[1, 5], [2, 3]] p.1 p.2)
          ((Rule.mk [-1, 0] [5, 1] [1] none).feature_indices.zip
            (Rule.mk [-1, 0] [5, 1] [1] none).categories) with
      | none => none
      | some ms => if pc then some (SatRes.conds ms)
        else (andMasksE ms).map SatRes.arr) ∧
    (∀ cat : Int, condMaskE [[1, 5], [2, 3]] (-1) cat =
      some ([[1, 5], [2, 3]].map
        (fun row => (row : List Int).getLast? == some cat))) ∧
    (Rule.mk [-1, 0] [5, 1] [1] none).describeE none [] "prob" =
      (outputText (Rule.mk [-1, 0] [5, 1] [1] none) "prob").map
        (fun o => "DEFAULT " ++ o ++ supportStr (Rule.mk [-1, 0] [5, 1] [1] none)
          (argmaxQ (Rule.mk [-1, 0] [5, 1] [1] none).output))) ∧
    (Rule.mk [-1, 0] [5, 1] [1] none).is_satisfy [[1, 5], [2, 3]] false =
      some (SatRes.arr [true, false]) ∧
    (Rule.mk [-1, 0] [5, 1] [1] none).describeE none [] "prob" =
      some "DEFAULT prob: [1.0000]" := by
  refine ⟨C10_default_sentinel_mismatch (Rule.mk [-1, 0] [5, 1] [1] none)
    [[1, 5], [2, 3]] none [] (by decide) (by decide) (by decide), by decide, by decide⟩

/-! ### Claim C9 -/

lemma string_fuse_else (s : String) : s ++ "\n" ++ "\nELSE " = s ++ "\n\nELSE " := by
  rw [String.append_assoc]
  rfl

/-- One unfolding step of the describe loop. -/
lemma rlDescribeList_cons (M : RuleListM) (fn : Option (List String)) (r : Rule)
    (rs : List Rule) (i : Nat) :
    rlDescribeList M fn (r :: rs) i =
      match r.describeE fn (ruleIntervals M.discretizer r) "prob" with
      | none => none
      | some line =>
        match rlDescribeList M fn rs (i + 1) with
        | none => none
        | some rest =>
          some (line ++ "\n" ++
            (if M.rule_list.length > 1 && !(i == M.rule_list.length - 1)
              then "\nELSE " else "") ++ rest) := rfl

/-- The describe loop over a rule suffix starting at position i produces
the lines joined by the ELSE connective, with one trailing newline. -/
lemma rlDescribeList_eq (M : RuleListM) (fn : Option (List String)) :
    ∀ (rs : List Rule) (i : Nat) (lines : List String),
      rs ≠ [] →
      i + rs.length = M.rule_list.length →
      optList (fun r => r.describeE fn (ruleIntervals M.discretizer r) "prob") rs =
        some lines →
      rlDescribeList M fn rs i = some (joinSep "\n\nELSE " lines ++ "\n") := by
  intro rs
  induction rs with
  | nil => intro i lines h; exact absurd rfl h
  | cons r rest ih =>
    intro i lines _ hcount hlines
    obtain ⟨line, lines', hline, hlines', hcons⟩ := optList_cons_eq_some hlines
    subst hcons
    cases rest with
    | nil =>
      simp only [optList, Option.some.injEq] at hlines'
      subst hlines'
      have hi : i = M.rule_list.length - 1 := by simp at hcount; omega
      have h0 : (i == M.rule_list.length - 1) = true := by rw [hi]; simp
      have hc : (decide (M.rule_list.length > 1) &&
          !(i == M.rule_list.length - 1)) = false := by
        rw [h0]
        simp
      rw [rlDescribeList_cons, hline]
      simp only [rlDescribeList, hc, Bool.false_eq_true, if_false, joinSep]
      simp
    | cons r2 rest2 =>
      have h1 : (i == M.rule_list.length - 1) = false := by
        rw [beq_eq_false_iff_ne]
        simp only [List.length_cons] at hcount
        omega
      have h2 : decide (M.rule_list.length > 1) = true := by
        rw [decide_eq_true_eq]
        simp only [List.length_cons] at hcount
        omega
      have hc : (decide (M.rule_list.length > 1) &&
          !(i == M.rule_list.length - 1)) = true := by
        rw [h1, h2]
        rfl
      have hrec := ih (i + 1) lines' (by simp)
        (by simp only [List.length_cons] at hcount ⊢; omega) hlines'
      have hlines'ne : lines' ≠ [] := by
        intro h
        rw [h] at hlines'
        have := optList_some_length hlines'
        simp at this
      rw [rlDescribeList_cons, hline, hrec]
      simp only [hc, if_true]
      cases lines' with
      | nil => exact absurd rfl hlines'ne
      | cons l2 lt2 =>
        simp only [joinSep, Option.some.injEq]
        rw [string_fuse_else, ← String.append_assoc]

/-- C9 counterexample: the full-list report ends with a trailing newline
after the default rule's line, so it is NOT exactly the header followed
by the connective-joined describe lines — there is one extra "\n". -/
theorem C9_counterexample :
    RuleList_describeE (RuleListM.mk (SBRL.mk [Rule.mk [-1] [-1] [1] none] 1 1)
        (Discretizer.mk [] (fun _ _ => []))) none =
      some ("The rule list has 1 of rules:\n\n     " ++
        joinSep "\n\nELSE " ["DEFAULT prob: [1.0000]"] ++ "\n") ∧
    RuleList_describeE (RuleListM.mk (SBRL.mk [Rule.mk [-1] [-1] [1] none] 1 1)
        (Discretizer.mk [] (fun _ _ => []))) none ≠
      some ("The rule list has 1 of rules:\n\n     " ++
        joinSep "\n\nELSE " ["DEFAULT prob: [1.0000]"]) := by
  refine ⟨by decide, by decide⟩

/-- C9 amended: the text of RuleList.describe is exactly the header
"The rule list has N of rules:" followed by a blank line and five
spaces, then the rules' describe() lines joined by the connective
"\n\nELSE ", and one trailing newline after the default rule's line
(no trailing connective). -/
theorem C9_report_layout (M : RuleListM) (fn : Option (List String))
    (lines : List String)
    (hne : M.rule_list ≠ [])
    (hlines : optList (fun r => r.describeE fn (ruleIntervals M.discretizer r) "prob")
      M.rule_list = some lines) :
    RuleList_describeE M fn =
      some ("The rule list has " ++ toString M.rule_list.length ++
        " of rules:\n\n     " ++ (joinSep "\n\nELSE " lines ++ "\n")) := by
  unfold RuleList_describeE
  rw [rlDescribeList_eq M fn M.rule_list 0 lines hne (by omega) hlines]
  rfl

/-- C9 witness: a two-rule list; the report is the header plus the two
describe lines joined by the ELSE connective plus the trailing newline. -/
theorem C9_report_layout_witness :
    RuleList_describeE (RuleListM.mk (SBRL.mk [Rule.mk [0] [1] [1] none,
        Rule.mk [-1] [-1] [1] none] 1 1) (Discretizer.mk [] (fun _ _ => []))) none =
      some ("The rule list has " ++ toString 2 ++ " of rules:\n\n     " ++
        (joinSep "\n\nELSE "
          ["IF (X0 = 1) THEN prob: [1.0000]", "DEFAULT prob: [1.0000]"] ++ "\n")) := by
  have h := C9_report_layout (RuleListM.mk (SBRL.mk [Rule.mk [0] [1] [1] none,
      Rule.mk [-1] [-1] [1] none] 1 1) (Discretizer.mk [] (fun _ _ => []))) none
    ["IF (X0 = 1) THEN prob: [1.0000]", "DEFAULT prob: [1.0000]"]
    (by decide) (by decide)
  exact h

/-! ### Claim C8 -/

/-- The exact failure conditions of one clause parse: no '=' delimiter,
or a numeric segment (before or after the delimiter) that int() rejects. -/
lemma parseClause_eq_none_iff (cl : List Char) :
    parseClause cl = none ↔
      pyFindChar cl '=' = -1 ∨
      pyInt ((cl.take (pyFindChar cl '=').toNat).drop 1) = none ∨
      pyInt (cl.drop ((pyFindChar cl '=').toNat + 1)) = none := by
  unfold parseClause
  by_cases h : (pyFindChar cl '=' == -1) = true
  · rw [if_pos h]
    rw [beq_iff_eq] at h
    simp [h]
  · rw [if_neg h]
    rw [beq_iff_eq] at h
    cases h1 : pyInt ((cl.take (pyFindChar cl '=').toNat).drop 1) with
    | none => simp [h, h1]
    | some f =>
      cases h2 : pyInt (cl.drop ((pyFindChar cl '=').toNat + 1)) with
      | none => simp [h, h1, h2]
      | some c => simp [h, h1, h2]

/-- C8 counterexample: the encoding "{c1=x}" has an '=' in its only
clause, yet parsing fails — int() rejects the category segment "x".  So
"parse error iff some clause lacks '='" is false in the only-if
direction. -/
theorem C8_counterexample :
    rule_name2rule (String.toList "{c1=x}") [1] none = none ∧
    (String.toList "c1=x").contains '=' = true ∧
    pySplit ',' (((String.toList "{c1=x}").drop 1).dropLast) =
      [String.toList "c1=x"] := by
  refine ⟨by decide, by decide, by decide⟩

/-- C8 amended: for a non-default encoding, parsing fails (and produces
no Rule) exactly when some comma-separated clause of the brace-stripped
text either contains no '=' delimiter or has a segment — the text
between position 1 and the '=', or the text after the '=' — that is not
a valid integer literal. -/
theorem C8_parse_error_conditions (nm : List Char) (prob : List ℚ)
    (supp : Option (List Nat))
    (hnd : nm ≠ ['d', 'e', 'f', 'a', 'u', 'l', 't']) :
    rule_name2rule nm prob supp = none ↔
      ∃ cl ∈ pySplit ',' ((nm.drop 1).dropLast),
        pyFindChar cl '=' = -1 ∨
        pyInt ((cl.take (pyFindChar cl '=').toNat).drop 1) = none ∨
        pyInt (cl.drop ((pyFindChar cl '=').toNat + 1)) = none := by
  unfold rule_name2rule
  rw [if_neg hnd]
  constructor
  · intro h
    cases ho : optList parseClause (pySplit ',' ((nm.drop 1).dropLast)) with
    | none =>
      obtain ⟨cl, hm, hn⟩ := optList_eq_none_iff.mp ho
      exact ⟨cl, hm, (parseClause_eq_none_iff cl).mp hn⟩
    | some ps => rw [ho] at h; simp at h
  · rintro ⟨cl, hm, hcond⟩
    have hn : parseClause cl = none := (parseClause_eq_none_iff cl).mpr hcond
    have ho := optList_eq_none_iff.mpr ⟨cl, hm, hn⟩
    rw [ho]
    rfl

/-- C8 witness: the amended criterion at "{9=9}" — the clause has an
'=', but the segment before it (after dropping the first character) is
empty, int() rejects it, and parsing indeed fails. -/
theorem C8_parse_error_conditions_witness :
    (rule_name2rule (String.toList "{9=9}") [1] none = none ↔
      ∃ cl ∈ pySplit ',' (((String.toList "{9=9}").drop 1).dropLast),
        pyFindChar cl '=' = -1 ∨
        pyInt ((cl.take (pyFindChar cl '=').toNat).drop 1) = none ∨
        pyInt (cl.drop ((pyFindChar cl '=').toNat + 1)) = none) :=
  C8_parse_error_conditions (String.toList "{9=9}") [1] none (by decide)

/-! ### Claim C3 -/

lemma digitChar10_spec {k : Nat} (h : k < 10) :
    (digitChar10 k).isDigit = true ∧ digitVal (digitChar10 k) = k := by
  interval_cases k <;> exact ⟨by decide, by decide⟩

lemma natDecFuel_spec :
    ∀ (fuel n : Nat), n < fuel →
      natDecFuel fuel n ≠ [] ∧
      (∀ c ∈ natDecFuel fuel n, c.isDigit = true) ∧
      (natDecFuel fuel n).foldl (fun acc c => 10 * acc + digitVal c) 0 = n := by
  intro fuel
  induction fuel with
  | zero => intro n h; omega
  | succ fuel ih =>
    intro n h
    by_cases h10 : n < 10
    · refine ⟨by simp [natDecFuel, h10], ?_, ?_⟩
      · intro c hc
        simp only [natDecFuel, if_pos h10, List.mem_singleton] at hc
        subst hc
        exact (digitChar10_spec h10).1
      · simp only [natDecFuel, if_pos h10, List.foldl_cons, List.foldl_nil]
        rw [(digitChar10_spec h10).2]
        omega
    · have hdiv : n / 10 < fuel := by
        have := Nat.div_lt_self (by omega : 0 < n) (by omega : 1 < 10)
        omega
      obtain ⟨hne, hdig, hfold⟩ := ih (n / 10) hdiv
      have hm : n % 10 < 10 := Nat.mod_lt _ (by omega)
      refine ⟨?_, ?_, ?_⟩
      · simp [natDecFuel, h10]
      · intro c hc
        simp only [natDecFuel, if_neg h10, List.mem_append, List.mem_singleton] at hc
        rcases hc with hc | hc
        · exact hdig c hc
        · subst hc; exact (digitChar10_spec hm).1
      · simp only [natDecFuel, if_neg h10, List.foldl_append, List.foldl_cons,
          List.foldl_nil, hfold]
        rw [(digitChar10_spec hm).2]
        omega

lemma parseDigits_of_digits {s : List Char} (hne : s ≠ [])
    (hdig : ∀ c ∈ s, c.isDigit = true) :
    parseDigits s = some (s.foldl (fun acc c => 10 * acc + digitVal c) 0) := by
  have h1 : s.isEmpty = false := by
    cases s with
    | nil => exact absurd rfl hne
    | cons a t => rfl
  have h2 : s.all Char.isDigit = true := List.all_eq_true.mpr hdig
  unfold parseDigits
  simp only [h1, Bool.false_eq_true, if_false, h2, if_true]

lemma pyInt_natDec (n : Nat) : pyInt (natDec n) = some ((n : Nat) : Int) := by
  have hne : natDec n ≠ [] := (natDecFuel_spec (n + 1) n (by omega)).1
  have hdig : ∀ c ∈ natDec n, c.isDigit = true := (natDecFuel_spec (n + 1) n (by omega)).2.1
  have hfold : (natDec n).foldl (fun acc c => 10 * acc + digitVal c) 0 = n :=
    (natDecFuel_spec (n + 1) n (by omega)).2.2
  have hd : parseDigits (natDec n) = some n := by
    rw [parseDigits_of_digits hne hdig, hfold]
  cases hx : natDec n with
  | nil => exact absurd hx hne
  | cons c0 t =>
    have hc0 : c0.isDigit = true := hdig c0 (by rw [hx]; exact List.mem_cons_self _ _)
    have hminus : (c0 == '-') = false := by
      rw [beq_eq_false_iff_ne]
      intro he; rw [he] at hc0; exact absurd hc0 (by decide)
    have hplus : (c0 == '+') = false := by
      rw [beq_eq_false_iff_ne]
      intro he; rw [he] at hc0; exact absurd hc0 (by decide)
    have h1 : (((c0 :: t).head?) == some '-') = false := hminus
    have h2 : (((c0 :: t).head?) == some '+') = false := hplus
    have hd' : parseDigits (c0 :: t) = some n := hx ▸ hd
    unfold pyInt
    rw [h1, h2]
    simp only [Bool.false_eq_true, if_false, hd', Option.map_some']
    rfl

lemma findIdx?_pre {p : Char → Bool} :
    ∀ (pre : List Char) (x : Char) (suf : List Char) (i : Nat),
      (∀ a ∈ pre, p a = false) → p x = true →
      List.findIdx? p (pre ++ x :: suf) i = some (i + pre.length) := by
  intro pre
  induction pre with
  | nil =>
    intro x suf i _ hx
    simp [List.findIdx?_cons, hx]
  | cons a pre' ih =>
    intro x suf i hpre hx
    have ha : p a = false := hpre a (by simp)
    rw [List.cons_append, List.findIdx?_cons, ha]
    simp only [Bool.false_eq_true, if_false]
    rw [ih x suf (i + 1) (fun a' ha' => hpre a' (by simp [ha'])) hx]
    congr 1
    simp only [List.length_cons]
    omega

lemma parseClause_encodeClause (q : Nat × Nat) :
    parseClause (encodeClause q) = some (((q.1 : Nat) : Int), ((q.2 : Nat) : Int)) := by
  obtain ⟨f, c⟩ := q
  have hdigf : ∀ ch ∈ natDec f, ch.isDigit = true := (natDecFuel_spec (f + 1) f (by omega)).2.1
  have hsplit : encodeClause (f, c) = ('c' :: natDec f) ++ '=' :: natDec c := rfl
  have hfind : pyFindChar (encodeClause (f, c)) '=' = (((natDec f).length + 1 : Nat) : Int) := by
    unfold pyFindChar
    rw [hsplit, findIdx?_pre ('c' :: natDec f) '=' (natDec c) 0 ?_ (by decide)]
    · simp only [List.length_cons, Nat.zero_add]
    · intro a ha
      rcases List.mem_cons.mp ha with h | h
      · subst h; decide
      · rw [beq_eq_false_iff_ne]
        intro he
        have := hdigf a h
        rw [he] at this
        exact absurd this (by decide)
  have htoNat : ((((natDec f).length + 1 : Nat) : Int)).toNat = (natDec f).length + 1 := by
    omega
  have htake : (encodeClause (f, c)).take ((natDec f).length + 1) = 'c' :: natDec f := by
    rw [hsplit, List.cons_append, List.take_succ_cons, List.take_left]
  have hdrop : (encodeClause (f, c)).drop ((natDec f).length + 1 + 1) = natDec c := by
    rw [hsplit, List.cons_append]
    rw [show (natDec f).length + 1 + 1 = ((natDec f).length + 1) + 1 from rfl]
    rw [List.drop_succ_cons]
    rw [List.drop_append 1]
    rfl
  unfold parseClause
  rw [hfind, htoNat]
  rw [if_neg (by simp only [beq_iff_eq]; omega)]
  rw [htake, hdrop]
  have hpre : (('c' :: natDec f).drop 1) = natDec f := rfl
  rw [hpre, pyInt_natDec, pyInt_natDec]
  rfl

lemma optList_map {α β γ : Type} (f : β → Option γ) (g : α → β) :
    ∀ l : List α, optList f (l.map g) = optList (fun a => f (g a)) l := by
  intro l
  induction l with
  | nil => rfl
  | cons a t ih => simp [optList, ih]

lemma pySplit_no_sep {sep : Char} :
    ∀ {s : List Char}, (∀ c ∈ s, (c == sep) = false) → pySplit sep s = [s] := by
  intro s
  induction s with
  | nil => intro _; rfl
  | cons c cs ih =>
    intro h
    have hc : (c == sep) = false := h c (by simp)
    have hr := ih (fun c' hc' => h c' (by simp [hc']))
    simp [pySplit, hc, hr]

lemma pySplit_append_sep {sep : Char} :
    ∀ (a : List Char), (∀ c ∈ a, (c == sep) = false) →
      ∀ tail, pySplit sep (a ++ sep :: tail) = a :: pySplit sep tail := by
  intro a
  induction a with
  | nil => intro _ tail; simp [pySplit]
  | cons c a' ih =>
    intro h tail
    have hc : (c == sep) = false := h c (by simp)
    have hr := ih (fun c' hc' => h c' (by simp [hc'])) tail
    simp [pySplit, hc, hr]

lemma pySplit_joinChar {sep : Char} :
    ∀ (parts : List (List Char)), parts ≠ [] →
      (∀ p ∈ parts, ∀ c ∈ p, (c == sep) = false) →
      pySplit sep (joinChar sep parts) = parts := by
  intro parts
  induction parts with
  | nil => intro h _; exact absurd rfl h
  | cons a rest ih =>
    intro _ h
    cases rest with
    | nil => exact pySplit_no_sep (h a (by simp))
    | cons b rest2 =>
      rw [show joinChar sep (a :: b :: rest2) = a ++ sep :: joinChar sep (b :: rest2)
        from rfl]
      rw [pySplit_append_sep a (h a (by simp))]
      rw [ih (by simp) (fun q hq d hd => h q (by simp [hq]) d hd)]

lemma encodeClause_no_comma (q : Nat × Nat) :
    ∀ ch ∈ encodeClause q, (ch == ',') = false := by
  obtain ⟨f, c⟩ := q
  intro ch hch
  rw [beq_eq_false_iff_ne]
  intro he
  subst he
  have hdigf : ∀ d ∈ natDec f, d.isDigit = true := (natDecFuel_spec (f + 1) f (by omega)).2.1
  have hdigc : ∀ d ∈ natDec c, d.isDigit = true := (natDecFuel_spec (c + 1) c (by omega)).2.1
  simp only [encodeClause, List.cons_append, List.mem_cons, List.mem_append] at hch
  rcases hch with h | h | h | h
  · exact absurd h (by decide)
  · exact absurd (hdigf ',' h) (by decide)
  · exact absurd h (by decide)
  · exact absurd (hdigc ',' h) (by decide)

/-- C3 counterexample: the clause "10=2" parses with the substring from
POSITION 1 to the '=' as the feature index, so "{10=2}" yields feature
index 0 — not 10 as "the entire substring before '='" demands. -/
theorem C3_counterexample :
    rule_name2rule (String.toList "{10=2}") [1] none =
      some (Rule.mk [0] [2] [1] none) ∧
    rule_name2rule (String.toList "{10=2}") [1] none ≠
      some (Rule.mk [10] [2] [1] none) := by
  refine ⟨by decide, by decide⟩

/-- C3 amended: the parser drops the FIRST character of each clause (the
one-character feature-name prefix emitted by the data-encoding step) and
parses the rest up to '=' as the feature index, and the entire substring
after '=' as the category code, in clause order.  Round-tripping through
the prefixed mining-engine encoding c<feature>=<category> therefore
reproduces the feature_indices and categories exactly. -/
theorem C3_roundtrip (ps : List (Nat × Nat)) (prob : List ℚ)
    (supp : Option (List Nat)) (hne : ps ≠ []) :
    rule_name2rule (encodeRuleName ps) prob supp =
      some (Rule.mk (ps.map (fun q => ((q.1 : Nat) : Int)))
        (ps.map (fun q => ((q.2 : Nat) : Int))) prob supp) := by
  unfold rule_name2rule
  rw [if_neg (by
    intro h
    unfold encodeRuleName at h
    injection h with h1 _
    exact absurd h1 (by decide))]
  have hstrip : ((encodeRuleName ps).drop 1).dropLast = joinChar ',' (ps.map encodeClause) := by
    show (joinChar ',' (ps.map encodeClause) ++ ['}']).dropLast = joinChar ',' (ps.map encodeClause)
    exact List.dropLast_concat
  rw [hstrip]
  rw [pySplit_joinChar (ps.map encodeClause)
    (fun h => hne (List.map_eq_nil_iff.mp h))
    (fun q hq => by
      obtain ⟨q', _, rfl⟩ := List.mem_map.mp hq
      exact encodeClause_no_comma q')]
  rw [optList_map]
  rw [optList_eq_map (fun q => (((q.1 : Nat) : Int), ((q.2 : Nat) : Int)))
    (fun q _ => parseClause_encodeClause q)]
  simp only [Option.bind_eq_bind, Option.some_bind, Option.pure_def, List.map_map]
  rfl

/-- C3 witness: the two-clause conditions (10, 2), (3, 4) survive the
encode-then-parse round trip. -/
theorem C3_roundtrip_witness :
    rule_name2rule (encodeRuleName [(10, 2), (3, 4)]) [1] none =
      some (Rule.mk [10, 3] [2, 4] [1] none) := by
  have h := C3_roundtrip [(10, 2), (3, 4)] [1] none (by decide)
  exact h

end XRule
